import Mathlib

/-!
Verification of the markdown-to-blocks conversion engine
(source: src/tools/utils/markdown-to-blocks.ts).

Strings are modelled as `List Char`.  Every definition below is a direct
translation of the corresponding source function; the regular expressions of
the source are translated to explicit scanners whose backtracking behaviour
is spelled out case by case.  All matchers that the source applies to a
single line are specialised to inputs that contain no newline character,
which holds for every line produced by the line splitter.
-/

/-- The character classes used by the source regexes. `isWs` is the JavaScript
whitespace class (`\s`, also the set removed by `String.prototype.trim`). -/
def isWs (c : Char) : Bool :=
  let n := c.toNat
  n == 0x09 || n == 0x0A || n == 0x0B || n == 0x0C || n == 0x0D || n == 0x20 ||
  n == 0xA0 || n == 0x1680 ||
  n == 0x2000 || n == 0x2001 || n == 0x2002 || n == 0x2003 || n == 0x2004 ||
  n == 0x2005 || n == 0x2006 || n == 0x2007 || n == 0x2008 || n == 0x2009 ||
  n == 0x200A || n == 0x2028 || n == 0x2029 || n == 0x202F || n == 0x205F ||
  n == 0x3000 || n == 0xFEFF

/-- The characters matched by `.` in a JavaScript regex: everything except the
four line terminators. -/
def dotMatch (c : Char) : Bool :=
  !(c.toNat == 0x0A || c.toNat == 0x0D || c.toNat == 0x2028 || c.toNat == 0x2029)

/-- The `\w` class: `[A-Za-z0-9_]`. -/
def isWordChar (c : Char) : Bool :=
  (decide (0x61 ≤ c.toNat) && decide (c.toNat ≤ 0x7A)) ||
  (decide (0x41 ≤ c.toNat) && decide (c.toNat ≤ 0x5A)) ||
  (decide (0x30 ≤ c.toNat) && decide (c.toNat ≤ 0x39)) ||
  c == '_'

/-- The function `String.prototype.trim` of JavaScript. -/
def jsTrim (l : List Char) : List Char :=
  ((l.dropWhile isWs).reverse.dropWhile isWs).reverse

/-- Helper for `splitLines`; `acc` is the current line, reversed.
The separators recognised are exactly those of `split(/\r?\n/)`:
a `\n`, optionally preceded by a `\r`. -/
def splitLinesAux : List Char → List Char → List (List Char)
  | acc, [] => [acc.reverse]
  | acc, [c] => if c == '\n' then [acc.reverse, []] else [(c :: acc).reverse]
  | acc, c :: d :: t =>
    if c == '\n' then acc.reverse :: splitLinesAux [] (d :: t)
    else if c == '\r' && d == '\n' then acc.reverse :: splitLinesAux [] t
    else splitLinesAux (c :: acc) (d :: t)

/-- The call `content.split(/\r?\n/)` of the source. -/
def splitLines (l : List Char) : List (List Char) := splitLinesAux [] l

/-- The call `codeLines.join("\n")` of the source. -/
def joinLines (ls : List (List Char)) : List Char := List.intercalate ['\n'] ls

/-- The constant `RICH_TEXT_MAX` of the source. -/
def RICH_TEXT_MAX : Nat := 2000

/-- The constant `BLOCKS_PER_BATCH` of the source. -/
def BLOCKS_PER_BATCH : Nat := 100

/-- The `Annotation` record of the source (spec name: AnnotationSet). -/
structure AnnotationSet where
  bold : Bool := false
  italic : Bool := false
  strikethrough : Bool := false
  code : Bool := false
deriving DecidableEq

/-- A rich text segment as built by the source (a text object holding a
content string plus an optional annotations record; the constant type field
is omitted here, and an absent annotations field is `none`). -/
structure RichTextSegment where
  content : List Char
  annotations : Option AnnotationSet
deriving DecidableEq

/-- The predicate `hasAnnotation` of the source. -/
def hasAnnotations : Option AnnotationSet → Bool
  | none => false
  | some a => a.bold || a.italic || a.strikethrough || a.code

/-- The semantic annotation set of a segment: an absent set reads as all-false
(the representation convention stated by the data model of the spec). -/
def annFlags : Option AnnotationSet → AnnotationSet
  | none => ⟨false, false, false, false⟩
  | some a => a

/-- Fuel-indexed chunking; with `l.length ≤ fuel` and `0 < n` this is the loop
`for (i = 0; i < l.length; i += n) push(l.slice(i, i + n))`:
each step takes `n` elements (`c :: t.take (n-1)`) and recurses on the rest. -/
def chunkListFuel (n : Nat) : Nat → List α → List (List α)
  | _, [] => []
  | 0, _ :: _ => []
  | fuel+1, c :: t => (c :: t.take (n-1)) :: chunkListFuel n fuel (t.drop (n-1))

/-- Slice a list into consecutive chunks of `n` (the last one possibly shorter). -/
def chunkList (n : Nat) (l : List α) : List (List α) := chunkListFuel n l.length l

/-- The function `splitSegment` of the source: a segment whose content exceeds
`RICH_TEXT_MAX` is cut into chunks of `RICH_TEXT_MAX`; the copied segments
carry the original annotations exactly when `hasAnnotation` holds. -/
def splitSegment (seg : RichTextSegment) : List RichTextSegment :=
  if seg.content.length ≤ RICH_TEXT_MAX then [seg]
  else
    (chunkList RICH_TEXT_MAX seg.content).map fun chunk =>
      { content := chunk,
        annotations := if hasAnnotations seg.annotations then seg.annotations else none }

/-- Which alternative of the inline pattern
`(\*\*(.+?)\*\*|~~(.+?)~~|X(.+?)X|\*(.+?)\*|_(.+?)_)` matched
(writing X for the backquote). -/
inductive MatchKind where
  | bold
  | strike
  | codeSpan
  | italicStar
  | italicUnderscore
deriving DecidableEq

/-- The annotation object the source attaches for each match kind. -/
def mkAnn : MatchKind → AnnotationSet
  | .bold => { bold := true }
  | .strike => { strikethrough := true }
  | .codeSpan => { code := true }
  | .italicStar => { italic := true }
  | .italicUnderscore => { italic := true }

/-- Lazy matching of `(.+?)` followed by the closing delimiter `cl`:
the shortest non-empty run of `.`-matching characters after which `cl` occurs.
Returns the inner text and the remainder after the closer. -/
def lazyInner (cl : List Char) : List Char → Option (List Char × List Char)
  | [] => none
  | c :: t =>
    if dotMatch c then
      if cl.isPrefixOf t then some ([c], t.drop cl.length)
      else
        match lazyInner cl t with
        | some (inner, rest) => some (c :: inner, rest)
        | none => none
    else none

/-- Try one alternative `d(.+?)d` at the start of `s`. -/
def tryDelim (d : List Char) (s : List Char) : Option (List Char × List Char) :=
  if d.isPrefixOf s then lazyInner d (s.drop d.length) else none

/-- The five delimiters, in the alternation order of the source pattern. -/
def boldDelim : List Char := ['*', '*']
def strikeDelim : List Char := ['~', '~']
def codeDelim : List Char := [Char.ofNat 0x60]
def starDelim : List Char := ['*']
def underscoreDelim : List Char := ['_']

/-- Try a list of alternatives in order at the current scan position. -/
def tryAltsList : List (List Char × MatchKind) → List Char →
    Option (MatchKind × List Char × List Char)
  | [], _ => none
  | (d, k) :: ds, s =>
    match tryDelim d s with
    | some (i, r) => some (k, i, r)
    | none => tryAltsList ds s

/-- The alternatives of the inline pattern, in source order: bold,
strikethrough, code, italic (star), italic (underscore). -/
def inlineDelims : List (List Char × MatchKind) :=
  [(boldDelim, MatchKind.bold), (strikeDelim, MatchKind.strike),
   (codeDelim, MatchKind.codeSpan), (starDelim, MatchKind.italicStar),
   (underscoreDelim, MatchKind.italicUnderscore)]

/-- Try the alternation at the current scan position. -/
def tryAltsAt (s : List Char) : Option (MatchKind × List Char × List Char) :=
  tryAltsList inlineDelims s

/-- The call `pattern.exec(remaining)`: leftmost match of the alternation.  Returns the
text before the match, the kind, the inner text, and the remainder after it. -/
def findMatch : List Char → Option (List Char × MatchKind × List Char × List Char)
  | [] => none
  | c :: t =>
    match tryAltsAt (c :: t) with
    | some (k, inner, rest) => some ([], k, inner, rest)
    | none =>
      match findMatch t with
      | some (pre, k, inner, rest) => some (c :: pre, k, inner, rest)
      | none => none

/-- The segment-collecting loop of `parseInlineAnnotations`, fuel-indexed
(`text.length ≤ fuel` suffices: every match strictly shrinks the remainder). -/
def parseSegmentsFuel : Nat → List Char → List RichTextSegment
  | 0, _ => []
  | fuel+1, text =>
    if text.isEmpty then []
    else
      match findMatch text with
      | none => [{ content := text, annotations := none }]
      | some (pre, k, inner, rest) =>
        (if pre.isEmpty then [] else [{ content := pre, annotations := none }]) ++
          { content := inner, annotations := some (mkAnn k) } ::
            parseSegmentsFuel fuel rest

/-- The raw segments produced by the scanning loop of `parseInlineAnnotations`. -/
def parseSegments (text : List Char) : List RichTextSegment :=
  parseSegmentsFuel text.length text

/-- The function `parseInlineAnnotations` of the source: scan for inline markup, then pass
every collected segment through `splitSegment`. -/
def parseInlineAnnotations (text : List Char) : List RichTextSegment :=
  (parseSegments text).flatMap splitSegment

/-- The function `plainRichText` of the source. -/
def plainRichText (content : List Char) : List RichTextSegment :=
  if content.isEmpty then [{ content := [], annotations := none }]
  else splitSegment { content := content, annotations := none }

/-- The block objects built by `makeBlock`/`richTextBlock`, as a sum type.
Here `heading n` stands for the heading type tag of level n in the source. -/
inductive Block where
  | code (richText : List RichTextSegment) (language : List Char)
  | divider
  | heading (level : Nat) (richText : List RichTextSegment)
  | todo (richText : List RichTextSegment) (checked : Bool)
  | bulleted (richText : List RichTextSegment)
  | numbered (richText : List RichTextSegment)
  | quote (richText : List RichTextSegment)
  | paragraph (richText : List RichTextSegment)
deriving DecidableEq

/-- The `rich_text` payload of a block (a divider has none). -/
def Block.richText : Block → List RichTextSegment
  | .code rt _ => rt
  | .divider => []
  | .heading _ rt => rt
  | .todo rt _ => rt
  | .bulleted rt => rt
  | .numbered rt => rt
  | .quote rt => rt
  | .paragraph rt => rt

/-- The three-backquote fence marker. -/
def tickMarks : List Char := [Char.ofNat 0x60, Char.ofNat 0x60, Char.ofNat 0x60]

/-- Default language of a fence with an empty tag. -/
def plainTextLang : List Char := "plain text".toList

/-- The fence-opener regex of the source, matched against the raw line:
three backquotes followed only by word characters; an empty tag defaults the
language to "plain text". -/
def fenceOpen (line : List Char) : Option (List Char) :=
  if tickMarks.isPrefixOf line then
    if (line.drop 3).all isWordChar then
      some (if (line.drop 3).isEmpty then plainTextLang else line.drop 3)
    else none
  else none

/-- The inner fence loop of the source: collect raw lines until one is exactly
the closing three-backquote line (consumed) or the input ends.  Returns the
collected code lines and the remaining lines. -/
def consumeFence : List (List Char) → List (List Char) × List (List Char)
  | [] => ([], [])
  | l :: t =>
    if l = tickMarks then ([], t)
    else (l :: (consumeFence t).1, (consumeFence t).2)

/-- Backtracking tail of the regexes ending in `\s+(.+)$`: `wrev` is the
whitespace run consumed so far (reversed, so its head is the rightmost
whitespace character) and `p` the remainder.  `(.+)$` succeeds on `p` exactly
when `p` is non-empty and all of `p` matches `.`; on failure the lazy engine
gives one whitespace character back to `p` and retries, and `\s+` must keep at
least one character. -/
def btTail : List Char → List Char → Option (List Char)
  | [], _ => none
  | c :: w, p => if !p.isEmpty && p.all dotMatch then some p else btTail w (c :: p)

/-- Match `\s+(.+)$` against `u` (greedy `\s+`, with backtracking): the
capture of `(.+)`. -/
def greedyTail (u : List Char) : Option (List Char) :=
  if (u.takeWhile isWs).isEmpty then none
  else btTail (u.takeWhile isWs).reverse (u.dropWhile isWs)

/-- The regex `^(#\x7b1,6\x7d)\s+(.+)$`: a run of 1-6 hashes, whitespace, text.  A run of 7 or
more cannot match (after backtracking the next character is another hash,
never whitespace), so only the full run length is viable. -/
def headingMatch (t : List Char) : Option (Nat × List Char) :=
  let h := (t.takeWhile (fun c => c == '#')).length
  if 1 ≤ h ∧ h ≤ 6 then (greedyTail (t.drop h)).map (fun p => (h, p)) else none

/-- The regex of the to-do item: marker, checkbox, whitespace, text.  The first `\s+` is the maximal whitespace
run: giving characters back would put a whitespace character where the
literal `[` is required. -/
def todoMatch (t : List Char) : Option (Bool × List Char) :=
  match t with
  | [] => none
  | m :: u =>
    if m == '-' || m == '*' then
      if (u.takeWhile isWs).isEmpty then none
      else
        match u.dropWhile isWs with
        | a :: c :: b :: v =>
          if a == '[' && b == ']' && (c == ' ' || c == 'x' || c == 'X') then
            (greedyTail v).map (fun p => (c != ' ', p))
          else none
        | _ => none
    else none

/-- The regex of the bulleted item: `^[-*]\s+(.+)$`. -/
def bulletMatch (t : List Char) : Option (List Char) :=
  match t with
  | [] => none
  | m :: u => if m == '-' || m == '*' then greedyTail u else none

/-- The regex of the numbered item: digits, a period, whitespace, text.  Here `\d+` is the maximal digit run: giving a digit back
would put a digit where the literal `.` is required. -/
def numberedMatch (t : List Char) : Option (List Char) :=
  let d := t.takeWhile Char.isDigit
  if d.isEmpty then none
  else
    match t.drop d.length with
    | [] => none
    | c :: u => if c == '.' then greedyTail u else none

/-- The regex of the quote line: `^>\s+(.+)$`. -/
def quoteMatch (t : List Char) : Option (List Char) :=
  match t with
  | [] => none
  | c :: u => if c == '>' then greedyTail u else none

/-- The horizontal-rule line. -/
def dividerChars : List Char := ['-', '-', '-']

/-- Classification of one non-blank trimmed line, classifiers in source order:
divider, heading, to-do, bullet, numbered, quote, else paragraph. -/
def classifySingle (t : List Char) : Block :=
  if t = dividerChars then .divider
  else
    match headingMatch t with
    | some (h, p) => .heading (min h 3) (parseInlineAnnotations p)
    | none =>
      match todoMatch t with
      | some (c, p) => .todo (parseInlineAnnotations p) c
      | none =>
        match bulletMatch t with
        | some p => .bulleted (parseInlineAnnotations p)
        | none =>
          match numberedMatch t with
          | some p => .numbered (parseInlineAnnotations p)
          | none =>
            match quoteMatch t with
            | some p => .quote (parseInlineAnnotations p)
            | none => .paragraph (parseInlineAnnotations t)

/-- The scanning loop of `markdownToBlocks`, fuel-indexed (`lines.length ≤ fuel`
suffices: the fence consumer never lengthens the remaining line list). -/
def convertLinesFuel : Nat → List (List Char) → List Block
  | 0, _ => []
  | fuel+1, lines =>
    match lines with
    | [] => []
    | line :: rest =>
      match fenceOpen line with
      | some lang =>
        Block.code (plainRichText (joinLines (consumeFence rest).1)) lang ::
          convertLinesFuel fuel (consumeFence rest).2
      | none =>
        if (jsTrim line).isEmpty then convertLinesFuel fuel rest
        else classifySingle (jsTrim line) :: convertLinesFuel fuel rest

/-- Convert a list of lines to blocks. -/
def convertLines (lines : List (List Char)) : List Block :=
  convertLinesFuel lines.length lines

/-- The function `markdownToBlocks` of the source. -/
def markdownToBlocks (content : List Char) : List Block :=
  if (jsTrim content).isEmpty then []
  else convertLines (splitLines (jsTrim content))

/-- The function `markdownToBlocksBatched` of the source. -/
def markdownToBlocksBatched (content : List Char) : List (List Block) :=
  if (markdownToBlocks content).isEmpty then []
  else chunkList BLOCKS_PER_BATCH (markdownToBlocks content)

/-- Abbreviation for string literals in concrete statements. -/
def chars (s : String) : List Char := s.toList

/-- A concrete over-long unannotated segment, used to instantiate theorems. -/
def bigSeg : RichTextSegment := ⟨List.replicate 4500 'a', none⟩

/-! ### Chunking lemmas -/

theorem chunkListFuel_nil (n f : Nat) : chunkListFuel (α := α) n f [] = [] := by
  cases f <;> rfl

theorem chunkListFuel_cons (n fuel : Nat) (c : α) (t : List α) :
    chunkListFuel n (fuel+1) (c :: t) =
      (c :: t.take (n-1)) :: chunkListFuel n fuel (t.drop (n-1)) := rfl

theorem chunkListFuel_join (n : Nat) :
    ∀ (f : Nat) (l : List α), l.length ≤ f → (chunkListFuel n f l).flatten = l := by
  intro f
  induction f with
  | zero =>
    intro l hf
    have : l = [] := List.length_eq_zero.mp (Nat.le_zero.mp hf)
    subst this
    simp [chunkListFuel_nil]
  | succ f ih =>
    intro l hf
    cases l with
    | nil => simp [chunkListFuel_nil]
    | cons c t =>
      have ht : t.length ≤ f := by
        simp only [List.length_cons] at hf; omega
      rw [chunkListFuel_cons, List.flatten_cons,
        ih _ (by simp only [List.length_drop]; omega)]
      simp [List.cons_append, List.take_append_drop]

theorem chunkListFuel_mem (n : Nat) (hn : 0 < n) :
    ∀ (f : Nat) (l : List α) (b : List α), b ∈ chunkListFuel n f l →
      b.length ≤ n ∧ b ≠ [] := by
  intro f
  induction f with
  | zero =>
    intro l b hb
    cases l <;> simp [chunkListFuel_nil, chunkListFuel] at hb
  | succ f ih =>
    intro l b hb
    cases l with
    | nil => simp [chunkListFuel_nil] at hb
    | cons c t =>
      rw [chunkListFuel_cons] at hb
      rcases List.mem_cons.mp hb with hb | hb
      · subst hb
        refine ⟨?_, by simp⟩
        have := Nat.min_le_left (n-1) t.length
        simp only [List.length_cons, List.length_take]
        omega
      · exact ih _ _ hb

theorem chunkListFuel_ne_nil (n f : Nat) (l : List α) (hl : l ≠ [])
    (hf : l.length ≤ f) : chunkListFuel n f l ≠ [] := by
  cases l with
  | nil => exact absurd rfl hl
  | cons c t =>
    cases f with
    | zero => simp at hf
    | succ f => rw [chunkListFuel_cons]; simp

theorem chunkListFuel_dropLast (n : Nat) (hn : 0 < n) :
    ∀ (f : Nat) (l : List α), l.length ≤ f →
      ∀ b ∈ (chunkListFuel n f l).dropLast, b.length = n := by
  intro f
  induction f with
  | zero =>
    intro l hf b hb
    have : l = [] := List.length_eq_zero.mp (Nat.le_zero.mp hf)
    subst this
    simp [chunkListFuel_nil] at hb
  | succ f ih =>
    intro l hf b hb
    cases l with
    | nil => simp [chunkListFuel_nil] at hb
    | cons c t =>
      have ht : t.length ≤ f := by
        simp only [List.length_cons] at hf; omega
      rw [chunkListFuel_cons] at hb
      by_cases hcs : chunkListFuel n f (t.drop (n-1)) = []
      · rw [hcs] at hb
        simp at hb
      · rw [List.dropLast_cons_of_ne_nil hcs] at hb
        rcases List.mem_cons.mp hb with hb | hb
        · subst hb
          have hdrop : ¬ t.drop (n-1) = [] := by
            intro h
            exact hcs (h ▸ chunkListFuel_nil n f)
          have hlen : n - 1 ≤ t.length := by
            by_contra h
            exact hdrop (List.drop_eq_nil_iff.mpr (by omega))
          simp only [List.length_cons, List.length_take]
          omega
        · exact ih _ (by simp only [List.length_drop]; omega) _ hb

theorem chunkListFuel_dvd (n : Nat) (hn : 0 < n) :
    ∀ (f : Nat) (l : List α), l.length ≤ f → n ∣ l.length →
      ∀ b ∈ chunkListFuel n f l, b.length = n := by
  intro f
  induction f with
  | zero =>
    intro l hf _ b hb
    have : l = [] := List.length_eq_zero.mp (Nat.le_zero.mp hf)
    subst this
    simp [chunkListFuel_nil] at hb
  | succ f ih =>
    intro l hf hd b hb
    cases l with
    | nil => simp [chunkListFuel_nil] at hb
    | cons c t =>
      have ht : t.length ≤ f := by
        simp only [List.length_cons] at hf; omega
      have hge : n ≤ t.length + 1 := by
        have h0 : 0 < (c :: t).length := by simp only [List.length_cons]; omega
        have h2 := Nat.le_of_dvd h0 hd
        simpa using h2
      rw [chunkListFuel_cons] at hb
      rcases List.mem_cons.mp hb with hb | hb
      · subst hb
        simp only [List.length_cons, List.length_take]
        rw [Nat.min_eq_left (by omega : n - 1 ≤ t.length)]
        omega
      · refine ih _ (by simp only [List.length_drop]; omega) ?_ _ hb
        have h1 : (t.drop (n-1)).length = t.length + 1 - n := by
          simp only [List.length_drop]; omega
        rw [h1]
        have : n ∣ (t.length + 1) := by simpa using hd
        exact Nat.dvd_sub' this dvd_rfl

theorem chunkListFuel_length (n : Nat) (hn : 0 < n) :
    ∀ (f : Nat) (l : List α), l.length ≤ f → l ≠ [] →
      (chunkListFuel n f l).length = (l.length + (n-1)) / n := by
  intro f
  induction f with
  | zero =>
    intro l hf hl
    exact absurd (List.length_eq_zero.mp (Nat.le_zero.mp hf)) hl
  | succ f ih =>
    intro l hf hl
    cases l with
    | nil => exact absurd rfl hl
    | cons c t =>
      have ht : t.length ≤ f := by
        simp only [List.length_cons] at hf; omega
      rw [chunkListFuel_cons]
      by_cases hT : t.length ≤ n - 1
      · have hdrop : t.drop (n-1) = [] := List.drop_eq_nil_iff.mpr hT
        rw [hdrop, chunkListFuel_nil]
        have h1 : (c :: t).length + (n - 1) = t.length + n := by
          simp only [List.length_cons]; omega
        rw [h1, Nat.add_div_right _ hn, Nat.div_eq_of_lt (by omega : t.length < n)]
        rfl
      · have hdrop : t.drop (n-1) ≠ [] := by
          intro h
          exact hT (List.drop_eq_nil_iff.mp h)
        have h2 := ih (t.drop (n-1)) (by simp only [List.length_drop]; omega) hdrop
        simp only [List.length_cons, h2, List.length_drop]
        have h3 : t.length - (n - 1) + (n - 1) = t.length := by omega
        have h4 : t.length + 1 + (n - 1) = t.length + n := by omega
        rw [h3, h4, Nat.add_div_right _ hn]

theorem chunkList_flatten (n : Nat) (l : List α) : (chunkList n l).flatten = l :=
  chunkListFuel_join n l.length l le_rfl

theorem chunkList_mem (n : Nat) (hn : 0 < n) (l : List α) (b : List α)
    (hb : b ∈ chunkList n l) : b.length ≤ n ∧ b ≠ [] :=
  chunkListFuel_mem n hn l.length l b hb

theorem chunkList_ne_nil (n : Nat) (l : List α) (hl : l ≠ []) :
    chunkList n l ≠ [] :=
  chunkListFuel_ne_nil n l.length l hl le_rfl

theorem chunkList_dropLast (n : Nat) (hn : 0 < n) (l : List α) :
    ∀ b ∈ (chunkList n l).dropLast, b.length = n :=
  chunkListFuel_dropLast n hn l.length l le_rfl

theorem chunkList_dvd (n : Nat) (hn : 0 < n) (l : List α) (hd : n ∣ l.length) :
    ∀ b ∈ chunkList n l, b.length = n :=
  chunkListFuel_dvd n hn l.length l le_rfl hd

theorem chunkList_length (n : Nat) (hn : 0 < n) (l : List α) (hl : l ≠ []) :
    (chunkList n l).length = (l.length + (n-1)) / n :=
  chunkListFuel_length n hn l.length l le_rfl hl

/-! ### Segment splitter lemmas -/

theorem annFlags_of_not_hasAnnotations (o : Option AnnotationSet)
    (h : hasAnnotations o = false) : annFlags o = ⟨false, false, false, false⟩ := by
  cases o with
  | none => rfl
  | some a =>
    cases a with
    | mk b i st co =>
      simp only [hasAnnotations, Bool.or_eq_false_iff] at h
      simp only [annFlags]
      obtain ⟨⟨⟨h1, h2⟩, h3⟩, h4⟩ := h
      simp [h1, h2, h3, h4]

theorem splitSegment_ne_nil (seg : RichTextSegment) : splitSegment seg ≠ [] := by
  by_cases h : seg.content.length ≤ RICH_TEXT_MAX
  · simp [splitSegment, h]
  · have hne : seg.content ≠ [] := by
      intro he
      rw [he] at h
      simp [RICH_TEXT_MAX] at h
    simp only [splitSegment, if_neg h, ne_eq, List.map_eq_nil_iff]
    exact chunkList_ne_nil _ _ hne

theorem splitSegment_mem_le (seg : RichTextSegment) :
    ∀ p ∈ splitSegment seg, p.content.length ≤ RICH_TEXT_MAX := by
  intro p hp
  by_cases h : seg.content.length ≤ RICH_TEXT_MAX
  · simp only [splitSegment, if_pos h, List.mem_singleton] at hp
    subst hp
    exact h
  · simp only [splitSegment, if_neg h, List.mem_map] at hp
    obtain ⟨chunk, hc, rfl⟩ := hp
    simpa using (chunkList_mem RICH_TEXT_MAX (by decide) _ _ hc).1

theorem splitSegment_mem_ne (seg : RichTextSegment) (h0 : seg.content ≠ []) :
    ∀ p ∈ splitSegment seg, p.content ≠ [] := by
  intro p hp
  by_cases h : seg.content.length ≤ RICH_TEXT_MAX
  · simp only [splitSegment, if_pos h, List.mem_singleton] at hp
    subst hp
    exact h0
  · simp only [splitSegment, if_neg h, List.mem_map] at hp
    obtain ⟨chunk, hc, rfl⟩ := hp
    simpa using (chunkList_mem RICH_TEXT_MAX (by decide) _ _ hc).2

theorem splitSegment_mem_ann (seg : RichTextSegment) :
    ∀ p ∈ splitSegment seg, annFlags p.annotations = annFlags seg.annotations := by
  intro p hp
  by_cases h : seg.content.length ≤ RICH_TEXT_MAX
  · simp only [splitSegment, if_pos h, List.mem_singleton] at hp
    subst hp
    rfl
  · simp only [splitSegment, if_neg h, List.mem_map] at hp
    obtain ⟨chunk, hc, rfl⟩ := hp
    by_cases ha : hasAnnotations seg.annotations
    · simp [ha]
    · simp only [Bool.not_eq_true] at ha
      rw [annFlags_of_not_hasAnnotations seg.annotations ha]
      simp [ha, annFlags]

theorem splitSegment_dropLast (seg : RichTextSegment)
    (h : ¬ seg.content.length ≤ RICH_TEXT_MAX) :
    ∀ p ∈ (splitSegment seg).dropLast, p.content.length = RICH_TEXT_MAX := by
  simp only [splitSegment, if_neg h]
  rw [← List.map_dropLast]
  intro p hp
  obtain ⟨chunk, hc, rfl⟩ := List.mem_map.mp hp
  simpa using chunkList_dropLast RICH_TEXT_MAX (by decide) _ _ hc

theorem splitSegment_length (seg : RichTextSegment)
    (h : ¬ seg.content.length ≤ RICH_TEXT_MAX) :
    (splitSegment seg).length =
      (seg.content.length + (RICH_TEXT_MAX - 1)) / RICH_TEXT_MAX := by
  simp only [splitSegment, if_neg h, List.length_map]
  refine chunkList_length _ (by decide) _ ?_
  intro he
  rw [he] at h
  simp [RICH_TEXT_MAX] at h

theorem splitSegment_flatten (seg : RichTextSegment) :
    ((splitSegment seg).map RichTextSegment.content).flatten = seg.content := by
  by_cases h : seg.content.length ≤ RICH_TEXT_MAX
  · simp [splitSegment, h]
  · simp only [splitSegment, if_neg h, List.map_map]
    have hcomp :
        (RichTextSegment.content ∘ fun chunk =>
          ({ content := chunk,
             annotations := if hasAnnotations seg.annotations then seg.annotations
               else none } : RichTextSegment)) = id := rfl
    rw [hcomp, List.map_id, chunkList_flatten]

/-- Claim C2: a segment of content length at most 2000 is returned unchanged as
a singleton; a longer one is split into ceil(length/2000) consecutive chunks,
all of length 2000 except a final chunk of length 1..2000, whose concatenation
is the original content, every part carrying the original annotation set. -/
theorem claim_C2 (seg : RichTextSegment) :
    (seg.content.length ≤ 2000 → splitSegment seg = [seg]) ∧
    (2000 < seg.content.length →
      (splitSegment seg).length = (seg.content.length + 1999) / 2000 ∧
      ((splitSegment seg).map RichTextSegment.content).flatten = seg.content ∧
      (∀ p ∈ splitSegment seg, p.content.length ≤ 2000 ∧ p.content ≠ []) ∧
      (∀ p ∈ (splitSegment seg).dropLast, p.content.length = 2000) ∧
      (∀ p ∈ splitSegment seg, annFlags p.annotations = annFlags seg.annotations)) := by
  constructor
  · intro h
    simp [splitSegment, RICH_TEXT_MAX, h]
  · intro h
    have h' : ¬ seg.content.length ≤ RICH_TEXT_MAX := by
      simp only [RICH_TEXT_MAX]; omega
    have h0 : seg.content ≠ [] := by
      intro he
      rw [he] at h
      simp at h
    refine ⟨splitSegment_length seg h', splitSegment_flatten seg,
      fun p hp => ⟨splitSegment_mem_le seg p hp, splitSegment_mem_ne seg h0 p hp⟩,
      splitSegment_dropLast seg h', splitSegment_mem_ann seg⟩

theorem claim_C2_witness :
    ((chars "ok").length ≤ 2000 ∧
      splitSegment ⟨chars "ok", none⟩ = [⟨chars "ok", none⟩]) ∧
    (2000 < bigSeg.content.length ∧
      (splitSegment bigSeg).length = (bigSeg.content.length + 1999) / 2000) := by
  have hok : (chars "ok").length ≤ 2000 := by decide
  have hc : bigSeg.content.length = 4500 := by
    rw [show bigSeg.content = List.replicate 4500 'a' from rfl]
    exact List.length_replicate 4500 'a'
  have hlen : (2000:Nat) < bigSeg.content.length := by omega
  exact ⟨⟨hok, (claim_C2 ⟨chars "ok", none⟩).1 hok⟩, hlen, ((claim_C2 bigSeg).2 hlen).1⟩

/-! ### Batching -/

/-- Claim C1: `markdownToBlocksBatched` partitions the `markdownToBlocks`
output into consecutive order-preserving groups: an empty block list gives an
empty batch list (not a single empty batch); otherwise every batch is
non-empty of length at most 100, the concatenation of the batches is exactly
the block list, every batch except possibly the last has length exactly 100,
and when the block count is a multiple of 100 every batch (the last included)
has length exactly 100, so there is no trailing empty batch. -/
theorem claim_C1 (content : List Char) :
    (markdownToBlocks content = [] → markdownToBlocksBatched content = []) ∧
    (markdownToBlocks content ≠ [] →
      (markdownToBlocksBatched content).flatten = markdownToBlocks content ∧
      (∀ b ∈ markdownToBlocksBatched content, b.length ≤ 100 ∧ b ≠ []) ∧
      (∀ b ∈ (markdownToBlocksBatched content).dropLast, b.length = 100) ∧
      ((markdownToBlocks content).length % 100 = 0 →
        ∀ b ∈ markdownToBlocksBatched content, b.length = 100)) := by
  constructor
  · intro h
    simp [markdownToBlocksBatched, h]
  · intro h
    have heq : markdownToBlocksBatched content =
        chunkList BLOCKS_PER_BATCH (markdownToBlocks content) := by
      simp [markdownToBlocksBatched, List.isEmpty_iff, h]
    rw [heq]
    exact ⟨chunkList_flatten _ _,
      fun b hb => chunkList_mem _ (by decide) _ _ hb,
      chunkList_dropLast _ (by decide) _,
      fun hmod b hb =>
        chunkList_dvd _ (by decide) _ (Nat.dvd_of_mod_eq_zero hmod) _ hb⟩

theorem claim_C1_witness :
    markdownToBlocks (chars "a\nb") ≠ [] ∧
    (markdownToBlocksBatched (chars "a\nb")).flatten = markdownToBlocks (chars "a\nb") := by
  have h : markdownToBlocks (chars "a\nb") ≠ [] := by decide
  exact ⟨h, ((claim_C1 (chars "a\nb")).2 h).1⟩

/-! ### Inline tokenizer lemmas -/

theorem lazyInner_spec (cl : List Char) :
    ∀ (t inner rest : List Char), lazyInner cl t = some (inner, rest) →
      inner ≠ [] ∧ rest.length < t.length := by
  intro t
  induction t with
  | nil => intro inner rest h; simp [lazyInner] at h
  | cons c t ih =>
    intro inner rest h
    simp only [lazyInner] at h
    by_cases hd : dotMatch c = true
    · rw [if_pos hd] at h
      by_cases hp : cl.isPrefixOf t = true
      · rw [if_pos hp] at h
        simp only [Option.some.injEq, Prod.mk.injEq] at h
        obtain ⟨h1, h2⟩ := h
        subst h1
        subst h2
        refine ⟨by simp, ?_⟩
        simp only [List.length_drop, List.length_cons]
        omega
      · rw [if_neg hp] at h
        cases hm : lazyInner cl t with
        | none => rw [hm] at h; simp at h
        | some pr =>
          obtain ⟨i2, r2⟩ := pr
          rw [hm] at h
          simp only [Option.some.injEq, Prod.mk.injEq] at h
          obtain ⟨h1, h2⟩ := h
          subst h1
          subst h2
          have hih := ih i2 r2 hm
          exact ⟨by simp, by simp only [List.length_cons]; omega⟩
    · rw [if_neg hd] at h
      simp at h

theorem tryDelim_spec (d s inner rest : List Char)
    (h : tryDelim d s = some (inner, rest)) :
    inner ≠ [] ∧ rest.length < s.length := by
  unfold tryDelim at h
  by_cases hp : d.isPrefixOf s = true
  · rw [if_pos hp] at h
    have hs := lazyInner_spec d (s.drop d.length) inner rest h
    refine ⟨hs.1, lt_of_lt_of_le hs.2 ?_⟩
    simp only [List.length_drop]
    omega
  · rw [if_neg hp] at h
    simp at h

theorem tryAltsList_spec :
    ∀ (ds : List (List Char × MatchKind)) (s : List Char) (k : MatchKind)
      (inner rest : List Char), tryAltsList ds s = some (k, inner, rest) →
      inner ≠ [] ∧ rest.length < s.length := by
  intro ds
  induction ds with
  | nil => intro s k inner rest h; simp [tryAltsList] at h
  | cons dk ds ih =>
    intro s k inner rest h
    obtain ⟨d, k0⟩ := dk
    simp only [tryAltsList] at h
    cases hm : tryDelim d s with
    | none => rw [hm] at h; exact ih s k inner rest h
    | some pr =>
      obtain ⟨i2, r2⟩ := pr
      rw [hm] at h
      simp only [Option.some.injEq, Prod.mk.injEq] at h
      obtain ⟨h1, h2, h3⟩ := h
      subst h2
      subst h3
      exact tryDelim_spec d s _ _ hm

theorem findMatch_spec :
    ∀ (s pre : List Char) (k : MatchKind) (inner rest : List Char),
      findMatch s = some (pre, k, inner, rest) →
      inner ≠ [] ∧ rest.length < s.length := by
  intro s
  induction s with
  | nil => intro pre k inner rest h; simp [findMatch] at h
  | cons c t ih =>
    intro pre k inner rest h
    simp only [findMatch] at h
    cases ha : tryAltsAt (c :: t) with
    | some v =>
      obtain ⟨k2, i2, r2⟩ := v
      rw [ha] at h
      simp only [Option.some.injEq, Prod.mk.injEq] at h
      obtain ⟨h1, h2, h3, h4⟩ := h
      subst h2
      subst h3
      subst h4
      exact tryAltsList_spec inlineDelims (c :: t) _ _ _ ha
    | none =>
      rw [ha] at h
      cases hf : findMatch t with
      | none => rw [hf] at h; simp at h
      | some v =>
        obtain ⟨p2, k2, i2, r2⟩ := v
        rw [hf] at h
        simp only [Option.some.injEq, Prod.mk.injEq] at h
        obtain ⟨h1, h2, h3, h4⟩ := h
        subst h2
        subst h3
        subst h4
        have hih := ih p2 _ _ _ hf
        exact ⟨hih.1, by have := hih.2; simp only [List.length_cons]; omega⟩

theorem parseSegmentsFuel_mem (f : Nat) :
    ∀ (text : List Char) (s : RichTextSegment),
      s ∈ parseSegmentsFuel f text → s.content ≠ [] := by
  induction f with
  | zero => intro text s hs; simp [parseSegmentsFuel] at hs
  | succ f ih =>
    intro text s hs
    simp only [parseSegmentsFuel] at hs
    by_cases he : text.isEmpty = true
    · rw [if_pos he] at hs; simp at hs
    · rw [if_neg he] at hs
      cases hm : findMatch text with
      | none =>
        rw [hm] at hs
        simp only [List.mem_singleton] at hs
        subst hs
        simpa [List.isEmpty_iff] using he
      | some v =>
        obtain ⟨pre, k, inner, rest⟩ := v
        rw [hm] at hs
        rcases List.mem_append.mp hs with hs | hs
        · by_cases hp : pre.isEmpty = true
          · rw [if_pos hp] at hs; simp at hs
          · rw [if_neg hp] at hs
            simp only [List.mem_singleton] at hs
            subst hs
            simpa [List.isEmpty_iff] using hp
        · rcases List.mem_cons.mp hs with hs | hs
          · subst hs
            exact (findMatch_spec text pre k inner rest hm).1
          · exact ih rest s hs

theorem parseSegments_ne_nil (text : List Char) (h : text ≠ []) :
    parseSegments text ≠ [] := by
  unfold parseSegments
  cases text with
  | nil => exact absurd rfl h
  | cons c t =>
    simp only [List.length_cons, parseSegmentsFuel]
    rw [if_neg (by simp)]
    cases hm : findMatch (c :: t) with
    | none => simp
    | some v =>
      obtain ⟨pre, k, inner, rest⟩ := v
      intro hc
      have := (List.append_eq_nil.mp hc).2
      simp at this

theorem parseInlineAnnotations_mem_le (text : List Char) :
    ∀ p ∈ parseInlineAnnotations text, p.content.length ≤ RICH_TEXT_MAX := by
  intro p hp
  obtain ⟨s, _, hp2⟩ := List.mem_flatMap.mp hp
  exact splitSegment_mem_le s p hp2

theorem parseInlineAnnotations_mem_ne (text : List Char) :
    ∀ p ∈ parseInlineAnnotations text, p.content ≠ [] := by
  intro p hp
  obtain ⟨s, hs, hp2⟩ := List.mem_flatMap.mp hp
  exact splitSegment_mem_ne s (parseSegmentsFuel_mem text.length text s hs) p hp2

theorem parseInlineAnnotations_ne_nil (text : List Char) (h : text ≠ []) :
    parseInlineAnnotations text ≠ [] := by
  unfold parseInlineAnnotations
  obtain ⟨s, rest, heq⟩ := List.exists_cons_of_ne_nil (parseSegments_ne_nil text h)
  rw [heq, List.flatMap_cons]
  intro hc
  exact splitSegment_ne_nil s (List.append_eq_nil.mp hc).1

/-- Claim C4 (amended): the inline tokenizer returns at least one segment for
every non-empty input; on the empty string it returns the empty sequence (not
a single empty segment). -/
theorem claim_C4 :
    (∀ text : List Char, text ≠ [] → parseInlineAnnotations text ≠ []) ∧
    parseInlineAnnotations [] = [] :=
  ⟨fun text h => parseInlineAnnotations_ne_nil text h, rfl⟩

/-- Claim C4 counterexample: on the empty string the scan loop of the tokenizer
never runs, so it returns the empty sequence, not a single empty-content
segment as the claim states. -/
theorem claim_C4_counterexample :
    parseInlineAnnotations [] = [] ∧
    parseInlineAnnotations [] ≠ [⟨[], none⟩] := by
  constructor
  · rfl
  · decide

theorem claim_C4_witness :
    chars "x" ≠ [] ∧ parseInlineAnnotations (chars "x") ≠ [] :=
  ⟨by decide, claim_C4.1 (chars "x") (by decide)⟩

/-! ### Line classifier lemmas -/

theorem btTail_spec :
    ∀ (w p q : List Char), btTail w p = some q → q ≠ [] := by
  intro w
  induction w with
  | nil => intro p q h; simp [btTail] at h
  | cons c w ih =>
    intro p q h
    simp only [btTail] at h
    by_cases hc : (!p.isEmpty && p.all dotMatch) = true
    · rw [if_pos hc] at h
      obtain rfl : p = q := Option.some.inj h
      intro hnil
      subst hnil
      simp at hc
    · rw [if_neg hc] at h
      exact ih _ _ h

theorem greedyTail_spec (u q : List Char) (h : greedyTail u = some q) : q ≠ [] := by
  unfold greedyTail at h
  by_cases he : (u.takeWhile isWs).isEmpty = true
  · rw [if_pos he] at h; simp at h
  · rw [if_neg he] at h
    exact btTail_spec _ _ _ h

theorem headingMatch_spec (t : List Char) (n : Nat) (p : List Char)
    (h : headingMatch t = some (n, p)) :
    p ≠ [] ∧ 1 ≤ n ∧ n ≤ 6 := by
  unfold headingMatch at h
  by_cases hc : 1 ≤ (t.takeWhile (fun c => c == '#')).length ∧
      (t.takeWhile (fun c => c == '#')).length ≤ 6
  · rw [if_pos hc] at h
    obtain ⟨q, hq, hpq⟩ := Option.map_eq_some'.mp h
    obtain ⟨h1, h2⟩ := Prod.mk.injEq .. ▸ hpq
    simp only [Prod.mk.injEq] at hpq
    obtain ⟨hn, hp⟩ := hpq
    subst hn
    subst hp
    exact ⟨greedyTail_spec _ _ hq, hc⟩
  · rw [if_neg hc] at h
    simp at h

theorem todoMatch_spec (t : List Char) (b : Bool) (p : List Char)
    (h : todoMatch t = some (b, p)) : p ≠ [] := by
  unfold todoMatch at h
  split at h
  · simp at h
  · split at h
    · split at h
      · simp at h
      · split at h
        · split at h
          · obtain ⟨q, hq, hpq⟩ := Option.map_eq_some'.mp h
            simp only [Prod.mk.injEq] at hpq
            obtain ⟨_, hp⟩ := hpq
            subst hp
            exact greedyTail_spec _ _ hq
          · simp at h
        · simp at h
    · simp at h

theorem bulletMatch_spec (t p : List Char) (h : bulletMatch t = some p) :
    p ≠ [] := by
  unfold bulletMatch at h
  split at h
  · simp at h
  · split at h
    · exact greedyTail_spec _ _ h
    · simp at h

theorem numberedMatch_spec (t p : List Char) (h : numberedMatch t = some p) :
    p ≠ [] := by
  simp only [numberedMatch] at h
  split at h
  · simp at h
  · split at h
    · simp at h
    · split at h
      · exact greedyTail_spec _ _ h
      · simp at h

theorem quoteMatch_spec (t p : List Char) (h : quoteMatch t = some p) :
    p ≠ [] := by
  unfold quoteMatch at h
  split at h
  · simp at h
  · split at h
    · exact greedyTail_spec _ _ h
    · simp at h

theorem classifySingle_spec (t : List Char) (ht : t ≠ []) :
    classifySingle t = Block.divider ∨
    ((classifySingle t).richText ≠ [] ∧
      ∀ p ∈ (classifySingle t).richText,
        p.content.length ≤ RICH_TEXT_MAX ∧ p.content ≠ []) := by
  unfold classifySingle
  by_cases hd : t = dividerChars
  · rw [if_pos hd]
    exact Or.inl rfl
  · rw [if_neg hd]
    right
    cases hh : headingMatch t with
    | some v =>
      obtain ⟨n, p⟩ := v
      have hp := (headingMatch_spec t n p hh).1
      exact ⟨parseInlineAnnotations_ne_nil p hp, fun q hq =>
        ⟨parseInlineAnnotations_mem_le p q hq, parseInlineAnnotations_mem_ne p q hq⟩⟩
    | none =>
      simp only
      cases htd : todoMatch t with
      | some v =>
        obtain ⟨b, p⟩ := v
        have hp := todoMatch_spec t b p htd
        exact ⟨parseInlineAnnotations_ne_nil p hp, fun q hq =>
          ⟨parseInlineAnnotations_mem_le p q hq, parseInlineAnnotations_mem_ne p q hq⟩⟩
      | none =>
        simp only
        cases hb : bulletMatch t with
        | some p =>
          have hp := bulletMatch_spec t p hb
          exact ⟨parseInlineAnnotations_ne_nil p hp, fun q hq =>
            ⟨parseInlineAnnotations_mem_le p q hq, parseInlineAnnotations_mem_ne p q hq⟩⟩
        | none =>
          simp only
          cases hn : numberedMatch t with
          | some p =>
            have hp := numberedMatch_spec t p hn
            exact ⟨parseInlineAnnotations_ne_nil p hp, fun q hq =>
              ⟨parseInlineAnnotations_mem_le p q hq, parseInlineAnnotations_mem_ne p q hq⟩⟩
          | none =>
            simp only
            cases hq0 : quoteMatch t with
            | some p =>
              have hp := quoteMatch_spec t p hq0
              exact ⟨parseInlineAnnotations_ne_nil p hp, fun q hq =>
                ⟨parseInlineAnnotations_mem_le p q hq, parseInlineAnnotations_mem_ne p q hq⟩⟩
            | none =>
              exact ⟨parseInlineAnnotations_ne_nil t ht, fun q hq =>
                ⟨parseInlineAnnotations_mem_le t q hq, parseInlineAnnotations_mem_ne t q hq⟩⟩

theorem plainRichText_ne_nil (c : List Char) : plainRichText c ≠ [] := by
  by_cases h : c.isEmpty = true
  · simp [plainRichText, h]
  · simp only [plainRichText, if_neg h]
    exact splitSegment_ne_nil _

theorem plainRichText_mem_le (c : List Char) :
    ∀ p ∈ plainRichText c, p.content.length ≤ RICH_TEXT_MAX := by
  intro p hp
  by_cases h : c.isEmpty = true
  · simp only [plainRichText, if_pos h, List.mem_singleton] at hp
    subst hp
    simp [RICH_TEXT_MAX]
  · simp only [plainRichText, if_neg h] at hp
    exact splitSegment_mem_le _ p hp

theorem plainRichText_empty_mem (c : List Char) (p : RichTextSegment)
    (hp : p ∈ plainRichText c) (he : p.content = []) :
    plainRichText c = [⟨[], none⟩] := by
  by_cases h : c.isEmpty = true
  · simp [plainRichText, h]
  · exfalso
    simp only [plainRichText, if_neg h] at hp
    exact splitSegment_mem_ne ⟨c, none⟩
      (by simpa [List.isEmpty_iff] using h) p hp he

/-- Every block produced by the converter is an (unsplit) code block, a
divider, or a block whose rich text is non-empty with short non-empty
segments. -/
theorem convertLinesFuel_shape (f : Nat) :
    ∀ (lines : List (List Char)) (b : Block), b ∈ convertLinesFuel f lines →
      (∃ cc lang, b = Block.code (plainRichText cc) lang) ∨
      b = Block.divider ∨
      (b.richText ≠ [] ∧
        ∀ p ∈ b.richText, p.content.length ≤ RICH_TEXT_MAX ∧ p.content ≠ []) := by
  induction f with
  | zero => intro lines b hb; simp [convertLinesFuel] at hb
  | succ f ih =>
    intro lines b hb
    cases lines with
    | nil => simp [convertLinesFuel] at hb
    | cons line rest =>
      simp only [convertLinesFuel] at hb
      cases hf : fenceOpen line with
      | some lang =>
        rw [hf] at hb
        rcases List.mem_cons.mp hb with hb | hb
        · exact Or.inl ⟨joinLines (consumeFence rest).1, lang, hb⟩
        · exact ih _ b hb
      | none =>
        rw [hf] at hb
        by_cases he : (jsTrim line).isEmpty = true
        · rw [if_pos he] at hb
          exact ih _ b hb
        · rw [if_neg he] at hb
          rcases List.mem_cons.mp hb with hb | hb
          · subst hb
            rcases classifySingle_spec (jsTrim line)
                (by simpa [List.isEmpty_iff] using he) with hc | hc
            · exact Or.inr (Or.inl hc)
            · exact Or.inr (Or.inr hc)
          · exact ih _ b hb

/-- Claim C3: every non-divider block produced by `markdownToBlocks` carries a
non-empty rich-text sequence, and every segment in any produced block has
content length at most 2000. -/
theorem claim_C3 (content : List Char) :
    ∀ b ∈ markdownToBlocks content, b ≠ Block.divider →
      b.richText ≠ [] ∧ ∀ p ∈ b.richText, p.content.length ≤ 2000 := by
  intro b hb hbd
  by_cases he : (jsTrim content).isEmpty = true
  · simp [markdownToBlocks, he] at hb
  · simp only [markdownToBlocks, if_neg he] at hb
    rcases convertLinesFuel_shape _ _ b hb with hc | hc | hc
    · obtain ⟨cc, lang, rfl⟩ := hc
      exact ⟨plainRichText_ne_nil cc, fun p hp => plainRichText_mem_le cc p hp⟩
    · exact absurd hc hbd
    · exact ⟨hc.1, fun p hp => (hc.2 p hp).1⟩

theorem claim_C3_witness :
    Block.paragraph [⟨chars "hi", none⟩] ∈ markdownToBlocks (chars "hi") ∧
    Block.paragraph [⟨chars "hi", none⟩] ≠ Block.divider ∧
    (Block.paragraph [⟨chars "hi", none⟩]).richText ≠ [] := by
  refine ⟨by decide, by decide, ?_⟩
  exact (claim_C3 (chars "hi") (Block.paragraph [⟨chars "hi", none⟩])
    (by decide) (by decide)).1

/-- Claim C10: an input whose fenced code region is empty — "```" alone or
"```" followed by the closing fence — yields exactly one code block whose
rich text is a single empty unannotated segment with the default language;
and any produced block containing an empty-content segment is exactly such a
code block (this is the only way an empty segment reaches a finished block). -/
theorem claim_C10 :
    markdownToBlocks (chars "```") =
      [Block.code [⟨[], none⟩] (chars "plain text")] ∧
    markdownToBlocks (chars "```\n```") =
      [Block.code [⟨[], none⟩] (chars "plain text")] ∧
    (∀ (content : List Char) (b : Block), b ∈ markdownToBlocks content →
      (∃ p ∈ b.richText, p.content = []) →
      ∃ lang, b = Block.code [⟨[], none⟩] lang) := by
  refine ⟨by decide, by decide, ?_⟩
  intro content b hb hex
  obtain ⟨p, hp, hpe⟩ := hex
  by_cases he : (jsTrim content).isEmpty = true
  · simp [markdownToBlocks, he] at hb
  · simp only [markdownToBlocks, if_neg he] at hb
    rcases convertLinesFuel_shape _ _ b hb with hc | hc | hc
    · obtain ⟨cc, lang, rfl⟩ := hc
      simp only [Block.richText] at hp
      exact ⟨lang, by rw [plainRichText_empty_mem cc p hp hpe]⟩
    · rw [hc] at hp
      simp [Block.richText] at hp
    · exact absurd hpe ((hc.2 p hp).2)

theorem claim_C10_witness :
    Block.code [⟨[], none⟩] (chars "plain text") ∈ markdownToBlocks (chars "```") ∧
    (∃ p ∈ (Block.code [⟨[], none⟩] (chars "plain text")).richText,
      p.content = []) ∧
    ∃ lang, Block.code [⟨[], none⟩] (chars "plain text") =
      Block.code [⟨[], none⟩] lang := by
  refine ⟨by decide, by decide, ?_⟩
  exact claim_C10.2.2 (chars "```") _ (by decide) (by decide)

/-! ### Converter unfolding equations -/

theorem consumeFence_len (ls : List (List Char)) :
    (consumeFence ls).2.length ≤ ls.length := by
  induction ls with
  | nil => simp [consumeFence]
  | cons l t ih =>
    simp only [consumeFence]
    by_cases h : l = tickMarks
    · rw [if_pos h]
      simp only [List.length_cons]
      omega
    · rw [if_neg h]
      simp only [List.length_cons]
      omega

theorem convertLinesFuel_irrel :
    ∀ (f g : Nat) (lines : List (List Char)), lines.length ≤ f →
      lines.length ≤ g → convertLinesFuel f lines = convertLinesFuel g lines := by
  intro f
  induction f with
  | zero =>
    intro g lines hf _
    have : lines = [] := List.length_eq_zero.mp (Nat.le_zero.mp hf)
    subst this
    cases g <;> simp [convertLinesFuel]
  | succ f ih =>
    intro g lines hf hg
    cases lines with
    | nil => cases g <;> simp [convertLinesFuel]
    | cons line rest =>
      cases g with
      | zero => simp at hg
      | succ g =>
        have hr : rest.length ≤ f := by
          simp only [List.length_cons] at hf; omega
        have hr2 : rest.length ≤ g := by
          simp only [List.length_cons] at hg; omega
        cases hfo : fenceOpen line with
        | some lang =>
          simp only [convertLinesFuel, hfo]
          have hc := consumeFence_len rest
          rw [ih g (consumeFence rest).2 (by omega) (by omega)]
        | none =>
          simp only [convertLinesFuel, hfo]
          by_cases he : (jsTrim line).isEmpty = true
          · rw [if_pos he, if_pos he]
            exact ih g rest hr hr2
          · rw [if_neg he, if_neg he, ih g rest hr hr2]

theorem convertLines_nil : convertLines [] = [] := rfl

theorem convertLines_cons_fence (line : List Char) (rest : List (List Char))
    (lang : List Char) (h : fenceOpen line = some lang) :
    convertLines (line :: rest) =
      Block.code (plainRichText (joinLines (consumeFence rest).1)) lang ::
        convertLines (consumeFence rest).2 := by
  unfold convertLines
  simp only [List.length_cons, convertLinesFuel, h]
  congr 1
  exact convertLinesFuel_irrel rest.length (consumeFence rest).2.length _
    (consumeFence_len rest) le_rfl

theorem convertLines_cons_skip (line : List Char) (rest : List (List Char))
    (h1 : fenceOpen line = none) (h2 : (jsTrim line).isEmpty = true) :
    convertLines (line :: rest) = convertLines rest := by
  unfold convertLines
  simp only [List.length_cons, convertLinesFuel, h1, if_pos h2]

theorem convertLines_cons_classify (line : List Char) (rest : List (List Char))
    (h1 : fenceOpen line = none) (h2 : ¬ (jsTrim line).isEmpty = true) :
    convertLines (line :: rest) =
      classifySingle (jsTrim line) :: convertLines rest := by
  unfold convertLines
  simp only [List.length_cons, convertLinesFuel, h1, if_neg h2]

theorem classifySingle_paragraph (t : List Char) (hd : t ≠ dividerChars)
    (hh : headingMatch t = none) (htd : todoMatch t = none)
    (hb : bulletMatch t = none) (hn : numberedMatch t = none)
    (hq : quoteMatch t = none) :
    classifySingle t = Block.paragraph (parseInlineAnnotations t) := by
  simp [classifySingle, hd, hh, htd, hb, hn, hq]

/-- Claim C5: the converter is a total function (it is a Lean function, so it
terminates and yields a block list on every input); an input that trims to
empty yields the empty block sequence, and a non-blank line on which no
special classifier fires becomes a paragraph block. -/
theorem claim_C5 :
    (∀ content : List Char, jsTrim content = [] → markdownToBlocks content = []) ∧
    (∀ (line : List Char) (rest : List (List Char)),
      fenceOpen line = none → jsTrim line ≠ [] → jsTrim line ≠ dividerChars →
      headingMatch (jsTrim line) = none → todoMatch (jsTrim line) = none →
      bulletMatch (jsTrim line) = none → numberedMatch (jsTrim line) = none →
      quoteMatch (jsTrim line) = none →
      convertLines (line :: rest) =
        Block.paragraph (parseInlineAnnotations (jsTrim line)) ::
          convertLines rest) := by
  constructor
  · intro content h
    simp [markdownToBlocks, h]
  · intro line rest h1 h2 h3 h4 h5 h6 h7 h8
    rw [convertLines_cons_classify line rest h1
        (by simp only [List.isEmpty_iff]; exact h2),
      classifySingle_paragraph (jsTrim line) h3 h4 h5 h6 h7 h8]

theorem claim_C5_witness :
    (jsTrim (chars "  ") = [] ∧ markdownToBlocks (chars "  ") = []) ∧
    (fenceOpen (chars "hello") = none ∧
      convertLines [chars "hello"] =
        [Block.paragraph (parseInlineAnnotations (jsTrim (chars "hello")))]) := by
  refine ⟨⟨by decide, claim_C5.1 (chars "  ") (by decide)⟩, by decide, ?_⟩
  exact claim_C5.2 (chars "hello") [] (by decide) (by decide) (by decide)
    (by decide) (by decide) (by decide) (by decide) (by decide)

/-! ### Fenced code blocks -/

theorem consumeFence_no_closer (rest : List (List Char))
    (h : ∀ l ∈ rest, l ≠ tickMarks) : consumeFence rest = (rest, []) := by
  induction rest with
  | nil => rfl
  | cons l t ih =>
    simp only [consumeFence]
    rw [if_neg (h l (by simp)), ih (fun x hx => h x (by simp [hx]))]

theorem fenceOpen_append (tag : List Char) (hw : tag.all isWordChar = true) :
    fenceOpen (tickMarks ++ tag) =
      some (if tag.isEmpty then plainTextLang else tag) := by
  have hdrop : (tickMarks ++ tag).drop 3 = tag := by
    have h3 := List.drop_left tickMarks tag
    rw [show tickMarks.length = 3 from rfl] at h3
    exact h3
  unfold fenceOpen
  rw [hdrop, if_pos (List.isPrefixOf_iff_prefix.mpr (List.prefix_append _ _)),
    if_pos hw]

/-- Claim C8: an unclosed fence consumes every remaining line to end of input
without error and produces a single code block; an empty tag after the fence
marker defaults the language to "plain text"; in particular the input
consisting of a bare fence line and one code line yields exactly one code
block with the default language and that line as content. -/
theorem claim_C8 :
    (∀ (tag : List Char) (rest : List (List Char)),
      tag.all isWordChar = true → (∀ l ∈ rest, l ≠ tickMarks) →
      convertLines ((tickMarks ++ tag) :: rest) =
        [Block.code (plainRichText (joinLines rest))
          (if tag.isEmpty then plainTextLang else tag)]) ∧
    markdownToBlocks (chars "```\nprint(1)") =
      [Block.code [⟨chars "print(1)", none⟩] (chars "plain text")] := by
  refine ⟨?_, by decide⟩
  intro tag rest hw hnc
  rw [convertLines_cons_fence _ _ _ (fenceOpen_append tag hw),
    consumeFence_no_closer rest hnc]
  simp [convertLines_nil]

theorem claim_C8_witness :
    (List.all ([] : List Char) isWordChar = true) ∧
    convertLines ((tickMarks ++ []) :: [chars "hi"]) =
      [Block.code (plainRichText (joinLines [chars "hi"]))
        (if List.isEmpty ([] : List Char) then plainTextLang else [])] := by
  refine ⟨by decide, ?_⟩
  exact claim_C8.1 [] [chars "hi"] (by decide) (by decide)

/-! ### Inline precedence -/

/-- Claim C7: the bold alternative is tried before the italic one at every
scan position, so a double-star span is parsed as one bold segment, never as
two italic markers; in particular the two-block scenario with a heading and a
bold span inside a paragraph parses exactly as specified. -/
theorem claim_C7 :
    (∀ (s inner rest : List Char), tryDelim boldDelim s = some (inner, rest) →
      tryAltsAt s = some (MatchKind.bold, inner, rest)) ∧
    parseInlineAnnotations (chars "**bold**") =
      [⟨chars "bold", some ⟨true, false, false, false⟩⟩] ∧
    markdownToBlocks (chars "# Title\n\nBody **bold** text") =
      [Block.heading 1 [⟨chars "Title", none⟩],
       Block.paragraph
         [⟨chars "Body ", none⟩,
          ⟨chars "bold", some ⟨true, false, false, false⟩⟩,
          ⟨chars " text", none⟩]] := by
  refine ⟨?_, by decide, by decide⟩
  intro s inner rest h
  simp [tryAltsAt, tryAltsList, inlineDelims, h]

theorem claim_C7_witness :
    tryDelim boldDelim (chars "**b**") = some (chars "b", []) ∧
    tryAltsAt (chars "**b**") = some (MatchKind.bold, chars "b", []) := by
  refine ⟨by decide, ?_⟩
  exact claim_C7.1 (chars "**b**") (chars "b") [] (by decide)

/-! ### Raw-line fence matching -/

theorem ws_ne_tick (c : Char) (h : isWs c = true) :
    (Char.ofNat 0x60 == c) = false := by
  by_contra hb
  simp only [Bool.not_eq_false, beq_iff_eq] at hb
  subst hb
  exact absurd h (by decide)

theorem fenceOpen_ws (c : Char) (l : List Char) (hc : isWs c = true) :
    fenceOpen (c :: l) = none := by
  have hne : (tickMarks.isPrefixOf (c :: l)) = false := by
    have h1 : (Char.ofNat 0x60 == c) = false := ws_ne_tick c hc
    show (List.isPrefixOf
      [Char.ofNat 0x60, Char.ofNat 0x60, Char.ofNat 0x60] (c :: l)) = false
    simp [List.isPrefixOf, h1]
  unfold fenceOpen
  rw [if_neg (by simp [hne])]

theorem dropWhile_all_append (ws l : List Char) (hw : ws.all isWs = true) :
    (ws ++ l).dropWhile isWs = l.dropWhile isWs := by
  induction ws with
  | nil => simp
  | cons c t ih =>
    simp only [List.all_cons, Bool.and_eq_true] at hw
    simp only [List.cons_append, List.dropWhile_cons, hw.1, if_pos]
    exact ih hw.2

theorem jsTrim_ws_tick (ws : List Char) (hw : ws.all isWs = true) :
    jsTrim (ws ++ tickMarks) = tickMarks := by
  show (((ws ++ tickMarks).dropWhile isWs).reverse.dropWhile isWs).reverse =
    tickMarks
  rw [dropWhile_all_append ws tickMarks hw]
  decide

/-- Claim C9: unlike every other classifier, the fence patterns are matched
against the raw, untrimmed line.  A line of whitespace followed by the fence
marker does not open a fence and instead goes to the ordinary classifiers of
its trimmed text, yielding a paragraph; and inside a fence a line that is the
fence marker with surrounding whitespace does not close the fence and is
collected as code content. -/
theorem claim_C9 :
    (∀ (ws : List Char) (rest : List (List Char)), ws ≠ [] →
      ws.all isWs = true →
      convertLines ((ws ++ tickMarks) :: rest) =
        Block.paragraph (parseInlineAnnotations tickMarks) ::
          convertLines rest) ∧
    (∀ (ws1 ws2 : List Char) (rest : List (List Char)),
      ws1.all isWs = true → ws2.all isWs = true → ws1 ++ ws2 ≠ [] →
      consumeFence ((ws1 ++ tickMarks ++ ws2) :: rest) =
        ((ws1 ++ tickMarks ++ ws2) :: (consumeFence rest).1,
          (consumeFence rest).2)) := by
  constructor
  · intro ws rest hne hw
    obtain ⟨c, ws', hws⟩ := List.exists_cons_of_ne_nil hne
    subst hws
    have hc : isWs c = true := by
      simp only [List.all_cons, Bool.and_eq_true] at hw
      exact hw.1
    have hfo : fenceOpen ((c :: ws') ++ tickMarks) = none := by
      rw [List.cons_append]
      exact fenceOpen_ws c _ hc
    have htrim : jsTrim ((c :: ws') ++ tickMarks) = tickMarks :=
      jsTrim_ws_tick (c :: ws') hw
    rw [convertLines_cons_classify _ _ hfo (by rw [htrim]; decide), htrim,
      show classifySingle tickMarks =
        Block.paragraph (parseInlineAnnotations tickMarks) from by decide]
  · intro ws1 ws2 rest h1 h2 hne
    simp only [consumeFence]
    rw [if_neg ?_]
    intro heq
    have hlen := congrArg List.length heq
    simp only [List.length_append] at hlen
    rw [show tickMarks.length = 3 from rfl] at hlen
    have hw1 : ws1.length = 0 ∧ ws2.length = 0 := by omega
    exact hne (by
      rw [List.length_eq_zero.mp hw1.1, List.length_eq_zero.mp hw1.2]
      rfl)

theorem claim_C9_witness :
    ([' '] ≠ ([] : List Char) ∧
      convertLines [[' '] ++ tickMarks] =
        [Block.paragraph (parseInlineAnnotations tickMarks)]) ∧
    consumeFence [[' '] ++ tickMarks ++ []] =
      (([' '] ++ tickMarks ++ []) :: (consumeFence []).1,
        (consumeFence []).2) := by
  refine ⟨⟨by decide, ?_⟩, ?_⟩
  · exact claim_C9.1 [' '] [] (by decide) (by decide)
  · exact claim_C9.2 [' '] [] [] (by decide) (by decide) (by decide)

/-! ### Heading classification: trimming and matcher lemmas -/

theorem dropWhile_idem (p : α → Bool) (l : List α) :
    (l.dropWhile p).dropWhile p = l.dropWhile p := by
  induction l with
  | nil => rfl
  | cons c t ih =>
    rw [List.dropWhile_cons]
    by_cases h : p c = true
    · rw [if_pos h]
      exact ih
    · rw [if_neg h, List.dropWhile_cons, if_neg h]

theorem dropWhile_head_not (p : α → Bool) (l : List α) :
    ∀ c, (l.dropWhile p).head? = some c → p c = false := by
  induction l with
  | nil => intro c h; simp at h
  | cons x t ih =>
    intro c h
    rw [List.dropWhile_cons] at h
    by_cases hx : p x = true
    · rw [if_pos hx] at h
      exact ih c h
    · rw [if_neg hx] at h
      simp only [List.head?_cons, Option.some.injEq] at h
      subst h
      simp only [Bool.not_eq_true] at hx
      exact hx

theorem hash_not_ws : isWs '#' = false := by decide

theorem replicate_hash_dropWhile (n : Nat) (hn : 1 ≤ n) (u : List Char) :
    (List.replicate n '#' ++ u).dropWhile isWs = List.replicate n '#' ++ u := by
  obtain ⟨m, rfl⟩ : ∃ m, n = m + 1 := ⟨n - 1, by omega⟩
  rw [List.replicate_succ, List.cons_append, List.dropWhile_cons,
    if_neg (by decide)]

/-- Trimming a line of hashes followed by `u` keeps the hashes and trims the
end of `u`. -/
theorem jsTrim_hash_line (n : Nat) (hn : 1 ≤ n) (u : List Char) :
    jsTrim (List.replicate n '#' ++ u) =
      List.replicate n '#' ++ (u.reverse.dropWhile isWs).reverse := by
  show (((List.replicate n '#' ++ u).dropWhile isWs).reverse.dropWhile
    isWs).reverse = _
  rw [replicate_hash_dropWhile n hn u, List.reverse_append,
    List.reverse_replicate, List.dropWhile_append]
  by_cases h2 : (u.reverse.dropWhile isWs).isEmpty = true
  · rw [if_pos h2]
    have h3 : (List.replicate n '#').dropWhile isWs = List.replicate n '#' := by
      obtain ⟨m, rfl⟩ : ∃ m, n = m + 1 := ⟨n - 1, by omega⟩
      rw [List.replicate_succ, List.dropWhile_cons, if_neg (by decide)]
    have h4 : u.reverse.dropWhile isWs = [] := by
      simpa [List.isEmpty_iff] using h2
    rw [h3, List.reverse_replicate, h4]
    simp
  · rw [if_neg h2, List.reverse_append, List.reverse_replicate]

theorem splitLinesAux_no_nl :
    ∀ (l acc : List Char), (∀ c ∈ l, (c == '\n') = false) →
      splitLinesAux acc l = [acc.reverse ++ l] := by
  intro l
  induction l with
  | nil => intro acc _; simp [splitLinesAux]
  | cons c t ih =>
    intro acc h
    have hc : (c == '\n') = false := h c (by simp)
    cases t with
    | nil =>
      simp only [splitLinesAux]
      rw [if_neg (by simp [hc])]
      simp
    | cons d t2 =>
      have hd : (d == '\n') = false := h d (by simp)
      simp only [splitLinesAux]
      rw [if_neg (by simp [hc]), if_neg (by simp [hd]),
        ih (c :: acc) (fun x hx => h x (by simp [hx]))]
      simp

theorem splitLines_no_nl (l : List Char)
    (h : ∀ c ∈ l, (c == '\n') = false) : splitLines l = [l] := by
  unfold splitLines
  rw [splitLinesAux_no_nl l [] h]
  rfl

theorem dot_ne_nl (c : Char) (h : dotMatch c = true) : (c == '\n') = false := by
  by_contra hb
  simp only [Bool.not_eq_false, beq_iff_eq] at hb
  subst hb
  exact absurd h (by decide)

theorem fenceOpen_head (c : Char) (l : List Char)
    (hc : (Char.ofNat 0x60 == c) = false) : fenceOpen (c :: l) = none := by
  have hne : (tickMarks.isPrefixOf (c :: l)) = false := by
    show (List.isPrefixOf
      [Char.ofNat 0x60, Char.ofNat 0x60, Char.ofNat 0x60] (c :: l)) = false
    simp [List.isPrefixOf, hc]
  unfold fenceOpen
  rw [if_neg (by simp [hne])]

theorem btTail_immediate (w p : List Char) (hw : w ≠ []) (hp : p ≠ [])
    (hpd : p.all dotMatch = true) : btTail w p = some p := by
  obtain ⟨c, w', rfl⟩ := List.exists_cons_of_ne_nil hw
  simp only [btTail]
  rw [if_pos]
  rw [hpd, Bool.and_true]
  simp [List.isEmpty_iff, hp]

theorem greedyTail_some (u : List Char) (h1 : u.takeWhile isWs ≠ [])
    (h2 : u.dropWhile isWs ≠ [])
    (h3 : (u.dropWhile isWs).all dotMatch = true) :
    greedyTail u = some (u.dropWhile isWs) := by
  unfold greedyTail
  rw [if_neg (by simp [List.isEmpty_iff, h1])]
  exact btTail_immediate _ _
    (fun hr => h1 (List.reverse_eq_nil_iff.mp hr)) h2 h3

theorem greedyTail_none (u : List Char) (h1 : u.takeWhile isWs = []) :
    greedyTail u = none := by
  unfold greedyTail
  rw [if_pos (by simp [List.isEmpty_iff, h1])]

theorem takeWhile_hash_replicate (n : Nat) (u : List Char)
    (hu : ∀ c, u.head? = some c → (c == '#') = false) :
    (List.replicate n '#' ++ u).takeWhile (fun c => c == '#') =
      List.replicate n '#' := by
  rw [List.takeWhile_append]
  rw [if_pos]
  · have htu : u.takeWhile (fun c => c == '#') = [] := by
      cases u with
      | nil => rfl
      | cons c t =>
        rw [List.takeWhile_cons, if_neg (by simp [hu c rfl])]
    rw [htu, List.append_nil]
  · rw [List.takeWhile_replicate, if_pos (by decide)]

theorem headingMatch_replicate_some (n : Nat) (hn1 : 1 ≤ n) (hn6 : n ≤ 6)
    (u p : List Char) (hu : ∀ c, u.head? = some c → (c == '#') = false)
    (hgt : greedyTail u = some p) :
    headingMatch (List.replicate n '#' ++ u) = some (n, p) := by
  have hdrop : (List.replicate n '#' ++ u).drop n = u := by
    have h := List.drop_left (List.replicate n '#') u
    rwa [List.length_replicate] at h
  simp only [headingMatch, takeWhile_hash_replicate n u hu,
    List.length_replicate, hdrop]
  rw [if_pos ⟨hn1, hn6⟩, hgt]
  rfl

theorem headingMatch_replicate_none (n : Nat) (hn1 : 1 ≤ n) (u : List Char)
    (hu : ∀ c, u.head? = some c → (c == '#') = false)
    (hgt : greedyTail u = none) :
    headingMatch (List.replicate n '#' ++ u) = none := by
  have hdrop : (List.replicate n '#' ++ u).drop n = u := by
    have h := List.drop_left (List.replicate n '#') u
    rwa [List.length_replicate] at h
  simp only [headingMatch, takeWhile_hash_replicate n u hu,
    List.length_replicate, hdrop]
  by_cases h6 : n ≤ 6
  · rw [if_pos ⟨hn1, h6⟩, hgt]
    rfl
  · rw [if_neg (by omega)]

theorem todoMatch_not_marker (c : Char) (w : List Char)
    (h : (c == '-' || c == '*') = false) : todoMatch (c :: w) = none := by
  simp [todoMatch, h]

theorem bulletMatch_not_marker (c : Char) (w : List Char)
    (h : (c == '-' || c == '*') = false) : bulletMatch (c :: w) = none := by
  simp [bulletMatch, h]

theorem numberedMatch_not_digit (c : Char) (w : List Char)
    (h : c.isDigit = false) : numberedMatch (c :: w) = none := by
  simp [numberedMatch, List.takeWhile_cons, h]

theorem quoteMatch_not_quote (c : Char) (w : List Char)
    (h : (c == '>') = false) : quoteMatch (c :: w) = none := by
  simp [quoteMatch, h]

theorem classifySingle_heading (t : List Char) (n : Nat) (p : List Char)
    (hd : t ≠ dividerChars) (hh : headingMatch t = some (n, p)) :
    classifySingle t = Block.heading (min n 3) (parseInlineAnnotations p) := by
  simp [classifySingle, hd, hh]

theorem trimEnd_mem (u : List Char) :
    ∀ c ∈ (u.reverse.dropWhile isWs).reverse, c ∈ u := by
  intro c hc
  rw [List.mem_reverse] at hc
  exact List.mem_reverse.mp (List.Sublist.mem hc (List.dropWhile_sublist isWs))

theorem trimEnd_cons_of_ne (x : Char) (u : List Char)
    (h : u.reverse.dropWhile isWs ≠ []) :
    ((x :: u).reverse.dropWhile isWs).reverse =
      x :: (u.reverse.dropWhile isWs).reverse := by
  rw [List.reverse_cons, List.dropWhile_append,
    if_neg (by simp [List.isEmpty_iff, h]), List.reverse_append]
  simp

theorem trimEnd_head (u : List Char)
    (h : (u.reverse.dropWhile isWs).reverse ≠ []) :
    ((u.reverse.dropWhile isWs).reverse).head? = u.head? := by
  have hu : u = (u.reverse.dropWhile isWs).reverse ++
      (u.reverse.takeWhile isWs).reverse := by
    rw [← List.reverse_append, List.takeWhile_append_dropWhile,
      List.reverse_reverse]
  obtain ⟨c, A, hA⟩ := List.exists_cons_of_ne_nil h
  have hhead : u.head? = some c := by
    rw [hu, hA]
    rfl
  rw [hA, hhead]
  rfl

theorem ws_ne_hash (c : Char) (h : isWs c = true) : (c == '#') = false := by
  by_contra hb
  simp only [Bool.not_eq_false, beq_iff_eq] at hb
  subst hb
  exact absurd h (by decide)

/-- Claim C6 (amended): a trimmed line of `n` hash marks (1 ≤ n ≤ 6) followed
by a whitespace character (any whitespace that can occur inside a line, so
not a newline) and then text that contains a non-whitespace character and no
carriage-return or line-separator characters becomes a heading of level
`min n 3` (so 4-6 hashes give `heading_3`); and a line (newline-free) whose
hash run is not followed by a whitespace character is not a heading and
becomes a paragraph. -/
theorem claim_C6 :
    (∀ (n : Nat) (w : Char) (text : List Char), 1 ≤ n → n ≤ 6 →
      isWs w = true → (w == '\n') = false →
      text.all dotMatch = true → ¬ text.all isWs = true →
      ∃ rt, markdownToBlocks (List.replicate n '#' ++ w :: text) =
        [Block.heading (min n 3) rt]) ∧
    (∀ (n : Nat) (text : List Char), 1 ≤ n →
      (∀ c ∈ text, (c == '\n') = false) →
      (∀ c, text.head? = some c → isWs c = false ∧ (c == '#') = false) →
      ∃ rt, markdownToBlocks (List.replicate n '#' ++ text) =
        [Block.paragraph rt]) := by
  constructor
  · -- heading case
    intro n w text hn1 hn6 hw hwn hdot hnw
    have hEne : text.reverse.dropWhile isWs ≠ [] := by
      intro hnil
      apply hnw
      rw [List.all_eq_true]
      intro c hc
      exact List.dropWhile_eq_nil_iff.mp hnil c (List.mem_reverse.mpr hc)
    have hErev : ((text.reverse.dropWhile isWs).reverse).reverse =
        text.reverse.dropWhile isWs := List.reverse_reverse _
    have hEdot : ∀ c ∈ (text.reverse.dropWhile isWs).reverse,
        dotMatch c = true := fun c hc =>
      List.all_eq_true.mp hdot c (trimEnd_mem text c hc)
    -- the trimmed line
    have htrim0 : jsTrim (List.replicate n '#' ++ w :: text) =
        List.replicate n '#' ++ w :: (text.reverse.dropWhile isWs).reverse := by
      rw [jsTrim_hash_line n hn1 (w :: text), trimEnd_cons_of_ne w text hEne]
    obtain ⟨m, rfl⟩ : ∃ m, n = m + 1 := ⟨n - 1, by omega⟩
    have hcons : List.replicate (m+1) '#' ++
        w :: (text.reverse.dropWhile isWs).reverse =
        '#' :: (List.replicate m '#' ++
          w :: (text.reverse.dropWhile isWs).reverse) := by
      rw [List.replicate_succ, List.cons_append]
    -- dropWhile isWs E is non-empty and all-dot
    obtain ⟨c0, tl, hc0⟩ := List.exists_cons_of_ne_nil hEne
    have hc0ws : isWs c0 = false :=
      dropWhile_head_not isWs text.reverse c0 (by rw [hc0]; rfl)
    have hc0mem : c0 ∈ (text.reverse.dropWhile isWs).reverse := by
      rw [List.mem_reverse, hc0]
      simp
    have hdropE : ((text.reverse.dropWhile isWs).reverse).dropWhile isWs ≠ [] := by
      intro hnil
      have := List.dropWhile_eq_nil_iff.mp hnil c0 hc0mem
      rw [hc0ws] at this
      exact Bool.false_ne_true this
    have hdropEdot :
        (((text.reverse.dropWhile isWs).reverse).dropWhile isWs).all dotMatch
          = true := by
      rw [List.all_eq_true]
      intro c hc
      exact hEdot c (List.Sublist.mem hc (List.dropWhile_sublist isWs))
    -- heading match on the trimmed line
    have hgt : greedyTail (w :: (text.reverse.dropWhile isWs).reverse) =
        some (((text.reverse.dropWhile isWs).reverse).dropWhile isWs) := by
      have h1 : (w :: (text.reverse.dropWhile isWs).reverse).takeWhile isWs
          ≠ [] := by
        rw [List.takeWhile_cons, if_pos hw]
        simp
      have h2 : (w :: (text.reverse.dropWhile isWs).reverse).dropWhile isWs
          = ((text.reverse.dropWhile isWs).reverse).dropWhile isWs := by
        rw [List.dropWhile_cons, if_pos hw]
      rw [greedyTail_some _ h1 (by rw [h2]; exact hdropE)
        (by rw [h2]; exact hdropEdot), h2]
    have hh : headingMatch (List.replicate (m+1) '#' ++
        w :: (text.reverse.dropWhile isWs).reverse) =
        some (m+1, ((text.reverse.dropWhile isWs).reverse).dropWhile isWs) :=
      headingMatch_replicate_some (m+1) hn1 hn6 _ _
        (fun c hc => by
          simp only [List.head?_cons, Option.some.injEq] at hc
          subst hc
          exact ws_ne_hash w hw) hgt
    -- the trimmed line is itself trimmed
    have htrim1 : jsTrim (List.replicate (m+1) '#' ++
        w :: (text.reverse.dropWhile isWs).reverse) =
        List.replicate (m+1) '#' ++
          w :: (text.reverse.dropWhile isWs).reverse := by
      rw [jsTrim_hash_line (m+1) hn1
          (w :: (text.reverse.dropWhile isWs).reverse),
        trimEnd_cons_of_ne w _ (by rw [hErev, dropWhile_idem]; exact hEne)]
      rw [hErev, dropWhile_idem]
    refine ⟨parseInlineAnnotations
      (((text.reverse.dropWhile isWs).reverse).dropWhile isWs), ?_⟩
    -- assemble
    have hne0 : ¬ (jsTrim (List.replicate (m+1) '#' ++ w :: text)).isEmpty
        = true := by
      rw [htrim0, hcons]
      simp
    rw [markdownToBlocks, if_neg hne0, htrim0]
    rw [splitLines_no_nl _ (by
      intro c hc
      rw [hcons] at hc
      rcases List.mem_cons.mp hc with hc | hc
      · subst hc; decide
      · rcases List.mem_append.mp hc with hc | hc
        · rw [List.eq_of_mem_replicate hc]; decide
        · rcases List.mem_cons.mp hc with hc | hc
          · subst hc; exact hwn
          · exact dot_ne_nl c (hEdot c hc))]
    rw [convertLines_cons_classify _ _
        (by rw [hcons]; exact fenceOpen_head '#' _ (by decide))
        (by rw [htrim1, hcons]; simp),
      htrim1, convertLines_nil,
      classifySingle_heading _ (m+1) _
        (by rw [hcons]; intro heq; simp [dividerChars] at heq) hh]
  · -- paragraph case
    intro n text hn1 hnl hhead
    have hErev : ((text.reverse.dropWhile isWs).reverse).reverse =
        text.reverse.dropWhile isWs := List.reverse_reverse _
    have hEnl : ∀ c ∈ (text.reverse.dropWhile isWs).reverse,
        (c == '\n') = false := fun c hc => hnl c (trimEnd_mem text c hc)
    have hEhead : ∀ c, ((text.reverse.dropWhile isWs).reverse).head? = some c →
        isWs c = false ∧ (c == '#') = false := by
      intro c hc
      have hne : (text.reverse.dropWhile isWs).reverse ≠ [] := by
        intro hnil
        rw [hnil] at hc
        simp at hc
      rw [trimEnd_head text hne] at hc
      exact hhead c hc
    have htw : ((text.reverse.dropWhile isWs).reverse).takeWhile isWs = [] := by
      cases hE : (text.reverse.dropWhile isWs).reverse with
      | nil => rfl
      | cons c E' =>
        rw [List.takeWhile_cons,
          if_neg (by simp [(hEhead c (by rw [hE]; rfl)).1])]
    have htrim0 : jsTrim (List.replicate n '#' ++ text) =
        List.replicate n '#' ++ (text.reverse.dropWhile isWs).reverse :=
      jsTrim_hash_line n hn1 text
    obtain ⟨m, rfl⟩ : ∃ m, n = m + 1 := ⟨n - 1, by omega⟩
    have hcons : List.replicate (m+1) '#' ++
        (text.reverse.dropWhile isWs).reverse =
        '#' :: (List.replicate m '#' ++
          (text.reverse.dropWhile isWs).reverse) := by
      rw [List.replicate_succ, List.cons_append]
    have hh : headingMatch (List.replicate (m+1) '#' ++
        (text.reverse.dropWhile isWs).reverse) = none :=
      headingMatch_replicate_none (m+1) hn1 _
        (fun c hc => (hEhead c hc).2) (greedyTail_none _ htw)
    have htrim1 : jsTrim (List.replicate (m+1) '#' ++
        (text.reverse.dropWhile isWs).reverse) =
        List.replicate (m+1) '#' ++
          (text.reverse.dropWhile isWs).reverse := by
      rw [jsTrim_hash_line (m+1) hn1 ((text.reverse.dropWhile isWs).reverse),
        hErev, dropWhile_idem]
    refine ⟨parseInlineAnnotations (List.replicate (m+1) '#' ++
      (text.reverse.dropWhile isWs).reverse), ?_⟩
    have hne0 : ¬ (jsTrim (List.replicate (m+1) '#' ++ text)).isEmpty
        = true := by
      rw [htrim0, hcons]
      simp
    rw [markdownToBlocks, if_neg hne0, htrim0]
    rw [splitLines_no_nl _ (by
      intro c hc
      rw [hcons] at hc
      rcases List.mem_cons.mp hc with hc | hc
      · subst hc; decide
      · rcases List.mem_append.mp hc with hc | hc
        · rw [List.eq_of_mem_replicate hc]; decide
        · exact hEnl c hc)]
    rw [convertLines_cons_classify _ _
        (by rw [hcons]; exact fenceOpen_head '#' _ (by decide))
        (by rw [htrim1, hcons]; simp),
      htrim1, convertLines_nil,
      classifySingle_paragraph _
        (by rw [hcons]; intro heq; simp [dividerChars] at heq)
        hh
        (by rw [hcons]; exact todoMatch_not_marker '#' _ (by decide))
        (by rw [hcons]; exact bulletMatch_not_marker '#' _ (by decide))
        (by rw [hcons]; exact numberedMatch_not_digit '#' _ (by decide))
        (by rw [hcons]; exact quoteMatch_not_quote '#' _ (by decide))]

/-- Claim C6 counterexample: as literally stated the claim fails twice.  A
line of one hash, one space and the text "a\rb" (a carriage return inside the
text) is classified as a paragraph, not a heading, because the dot of the
heading regex cannot cross the carriage return; and a hash followed by a tab
(not a space) and text yields a heading, not a paragraph, because the regex
accepts any whitespace after the hashes. -/
theorem claim_C6_counterexample :
    markdownToBlocks (chars "# a\rb") =
      [Block.paragraph [⟨chars "# a\rb", none⟩]] ∧
    markdownToBlocks (chars "#\tx") =
      [Block.heading 1 [⟨chars "x", none⟩]] := by
  constructor <;> decide

theorem claim_C6_witness :
    (isWs '\t' = true ∧ (chars "T").all dotMatch = true ∧
      ∃ rt, markdownToBlocks (List.replicate 4 '#' ++ '\t' :: chars "T") =
        [Block.heading (min 4 3) rt]) ∧
    ((∀ c ∈ chars "x", (c == '\n') = false) ∧
      ∃ rt, markdownToBlocks (List.replicate 7 '#' ++ chars "x") =
        [Block.paragraph rt]) := by
  refine ⟨⟨by decide, by decide, ?_⟩, ⟨by decide, ?_⟩⟩
  · exact claim_C6.1 4 '\t' (chars "T") (by omega) (by omega) (by decide)
      (by decide) (by decide) (by decide)
  · exact claim_C6.2 7 (chars "x") (by omega) (by decide)
      (by intro c hc; simp only [chars] at hc; simp at hc; subst hc; decide)
